import Mathlib

/-!
Verification of the chunk-upload library (client `ChunkUploadService.ts` and the
example Express server `server.ts`) against its specification.

The embedding models files as lists of bytes (`List ℕ`), JavaScript numbers as
`ℕ`/`ℤ`/`ℚ` as appropriate, the server's `Map`/file-system state as explicit
functional state, and the client's network attempts as a boolean oracle
(chunk index → attempt number → whether that HTTP POST succeeds).
-/

namespace ChunkUpload

/-! ### Client: constructor (ChunkUploadService.ts, constructor) -/

/-- JavaScript `v || d` for an optional numeric option: `undefined` (here `none`)
and `0` are falsy and fall back to the default; every other value is kept. -/
def jsOr (v : Option Int) (d : Int) : Int :=
  match v with
  | none => d
  | some x => if x = 0 then d else x

/-- The `InvalidConfiguration` error named by the specification's error taxonomy. -/
inductive ConfigError where
  | invalidConfiguration
  deriving DecidableEq, Repr

/-- The `ChunkUploadService` constructor: `this.chunkSize = options.chunkSize || 1024*1024;
this.maxRetries = options.maxRetries || 3`. The body only assigns fields; no code path
throws, so the result is always `Except.ok`. Returns the `(chunkSize, maxRetries)` pair. -/
def constructService (chunkSize maxRetries : Option Int) : Except ConfigError (Int × Int) :=
  Except.ok (jsOr chunkSize (1024 * 1024), jsOr maxRetries 3)

/-! ### Client: chunk planner (ChunkUploadService.ts, calculateTotalChunks) -/

/-- `calculateTotalChunks(fileSize) = Math.ceil(fileSize / this.chunkSize)`,
written as natural ceiling division; `calculateTotalChunks_eq_ceil` proves this
equals the rational ceiling used by the JavaScript source. -/
def calculateTotalChunks (chunkSize fileSize : ℕ) : ℕ :=
  (fileSize + chunkSize - 1) / chunkSize

/-- `file.slice(start, stop)` on a byte list. -/
def fileSlice (file : List ℕ) (start stop : ℕ) : List ℕ :=
  (file.drop start).take (stop - start)

theorem calculateTotalChunks_eq_ceil (cs fs : ℕ) (hcs : 0 < cs) :
    calculateTotalChunks cs fs = ⌈(fs : ℚ) / (cs : ℚ)⌉₊ := by
  unfold calculateTotalChunks
  set q := (fs + cs - 1) / cs with hq
  have hmod : cs * q + (fs + cs - 1) % cs = fs + cs - 1 := Nat.div_add_mod (fs + cs - 1) cs
  have hcomm : q * cs = cs * q := Nat.mul_comm q cs
  have hlt : (fs + cs - 1) % cs < cs := Nat.mod_lt (fs + cs - 1) hcs
  rcases Nat.eq_zero_or_pos fs with hfs | hfs
  · subst hfs
    have h0 : q = 0 := by
      rw [hq]
      exact Nat.div_eq_of_lt (by omega)
    rw [h0]
    symm
    rw [Nat.ceil_eq_zero]
    simp
  · have hcsq : (0 : ℚ) < (cs : ℚ) := by exact_mod_cast hcs
    apply le_antisymm
    · have hq1 : 1 ≤ q := by
        rw [hq, Nat.one_le_div_iff hcs]
        omega
      have hsub : (q - 1) * cs = q * cs - 1 * cs := Nat.sub_mul q 1 cs
      have hone : 1 * cs = cs := Nat.one_mul cs
      have hlt2 : (q - 1) * cs < fs := by omega
      have hceil : (q - 1) < ⌈(fs : ℚ) / (cs : ℚ)⌉₊ := by
        rw [Nat.lt_ceil, lt_div_iff₀ hcsq]
        exact_mod_cast hlt2
      omega
    · rw [Nat.ceil_le, div_le_iff₀ hcsq]
      exact_mod_cast (show fs ≤ q * cs by omega)

/-- Ceiling bounds: `fs ≤ tc * cs`, and for a non-empty file `(tc - 1) * cs < fs`. -/
theorem calculateTotalChunks_bounds (cs fs : ℕ) (hcs : 0 < cs) :
    fs ≤ calculateTotalChunks cs fs * cs ∧
    (0 < fs → (calculateTotalChunks cs fs - 1) * cs < fs) := by
  unfold calculateTotalChunks
  set q := (fs + cs - 1) / cs with hq
  have hmod : cs * q + (fs + cs - 1) % cs = fs + cs - 1 := Nat.div_add_mod (fs + cs - 1) cs
  have hcomm : q * cs = cs * q := Nat.mul_comm q cs
  have hlt : (fs + cs - 1) % cs < cs := Nat.mod_lt (fs + cs - 1) hcs
  constructor
  · omega
  · intro hfs
    have hq1 : 1 ≤ q := by
      rw [hq, Nat.one_le_div_iff hcs]
      omega
    have hsub : (q - 1) * cs = q * cs - 1 * cs := Nat.sub_mul q 1 cs
    have hone : 1 * cs = cs := Nat.one_mul cs
    omega

theorem calculateTotalChunks_pos (cs fs : ℕ) (hcs : 0 < cs) (hfs : 0 < fs) :
    1 ≤ calculateTotalChunks cs fs := by
  unfold calculateTotalChunks
  rw [Nat.one_le_div_iff hcs]
  omega

theorem tc_mul_split (cs fs : ℕ) (hcs : 0 < cs) (hfs : 0 < fs) :
    calculateTotalChunks cs fs * cs = (calculateTotalChunks cs fs - 1) * cs + cs := by
  have hq1 := calculateTotalChunks_pos cs fs hcs hfs
  have hsub : (calculateTotalChunks cs fs - 1) * cs
      = calculateTotalChunks cs fs * cs - 1 * cs := Nat.sub_mul _ 1 cs
  have hone : 1 * cs = cs := Nat.one_mul cs
  have hle : 1 * cs ≤ calculateTotalChunks cs fs * cs :=
    Nat.mul_le_mul_right cs hq1
  omega

/-- The length of the slice `file.slice(i*cs, min(i*cs + cs, file.length))`. -/
theorem fileSlice_length (file : List ℕ) (i cs : ℕ) :
    (fileSlice file (i * cs) (min (i * cs + cs) file.length)).length
      = min (i * cs + cs) file.length - i * cs := by
  simp only [fileSlice, List.length_take, List.length_drop]
  omega

/-- Total bytes covered by the chunks of a list of chunk indices. -/
def chunkBytes (cs : ℕ) (file : List ℕ) (l : List ℕ) : ℕ :=
  (l.map (fun i => (fileSlice file (i * cs) (min (i * cs + cs) file.length)).length)).sum

theorem chunkBytes_append (cs : ℕ) (file : List ℕ) (l1 l2 : List ℕ) :
    chunkBytes cs file (l1 ++ l2) = chunkBytes cs file l1 + chunkBytes cs file l2 := by
  simp [chunkBytes]

/-- Telescoping: the first `n` chunks together cover `min (n * cs) file.length` bytes. -/
theorem chunkBytes_range (cs : ℕ) (file : List ℕ) (n : ℕ) :
    chunkBytes cs file (List.range n) = min (n * cs) file.length := by
  induction n with
  | zero => simp [chunkBytes]
  | succ n ih =>
    rw [List.range_succ, chunkBytes_append, ih]
    have h1 : (n + 1) * cs = n * cs + cs := by ring
    have h2 : chunkBytes cs file [n] = min (n * cs + cs) file.length - n * cs := by
      simp [chunkBytes, fileSlice_length]
    rw [h2]
    omega

/-- C2: For `fileSize ≥ 1` and `chunkSize ≥ 1` the planner returns
`ceil(fileSize / chunkSize)`; the per-chunk byte lengths obtained by slicing
`[i*chunkSize, min((i+1)*chunkSize, fileSize))` sum exactly to `fileSize`; the
last chunk's length is `fileSize - chunkSize * (totalChunks - 1)`, strictly
positive and at most `chunkSize`. For `fileSize = 0` the planner returns 0. -/
theorem chunk_planner_correct (cs fs : ℕ) (file : List ℕ)
    (hcs : 1 ≤ cs) (hfile : file.length = fs) :
    (1 ≤ fs →
      calculateTotalChunks cs fs = ⌈(fs : ℚ) / (cs : ℚ)⌉₊ ∧
      chunkBytes cs file (List.range (calculateTotalChunks cs fs)) = fs ∧
      (fileSlice file ((calculateTotalChunks cs fs - 1) * cs)
          (min ((calculateTotalChunks cs fs - 1) * cs + cs) fs)).length
        = fs - cs * (calculateTotalChunks cs fs - 1) ∧
      0 < fs - cs * (calculateTotalChunks cs fs - 1) ∧
      fs - cs * (calculateTotalChunks cs fs - 1) ≤ cs) ∧
    calculateTotalChunks cs 0 = 0 := by
  have hcs0 : 0 < cs := hcs
  have hb := calculateTotalChunks_bounds cs fs hcs0
  constructor
  · intro hfs
    have hup : fs ≤ calculateTotalChunks cs fs * cs := hb.1
    have hlo : (calculateTotalChunks cs fs - 1) * cs < fs := hb.2 hfs
    refine ⟨calculateTotalChunks_eq_ceil cs fs hcs0, ?_, ?_, ?_, ?_⟩
    · rw [chunkBytes_range, hfile]
      omega
    · subst hfile
      rw [fileSlice_length]
      have h1 : calculateTotalChunks cs file.length * cs
          = (calculateTotalChunks cs file.length - 1) * cs + cs :=
        tc_mul_split cs file.length hcs0 hfs
      have h2 : cs * (calculateTotalChunks cs file.length - 1)
          = (calculateTotalChunks cs file.length - 1) * cs := Nat.mul_comm _ _
      omega
    · have h2 : cs * (calculateTotalChunks cs fs - 1)
          = (calculateTotalChunks cs fs - 1) * cs := Nat.mul_comm _ _
      omega
    · have h1 : calculateTotalChunks cs fs * cs
          = (calculateTotalChunks cs fs - 1) * cs + cs :=
        tc_mul_split cs fs hcs0 hfs
      have h2 : cs * (calculateTotalChunks cs fs - 1)
          = (calculateTotalChunks cs fs - 1) * cs := Nat.mul_comm _ _
      omega
  · unfold calculateTotalChunks
    exact Nat.div_eq_of_lt (by omega)

/-- Witness for `chunk_planner_correct` at `chunkSize = 2`, `fileSize = 5`. -/
theorem chunk_planner_correct_witness :
    (1 : ℕ) ≤ 2 ∧
    chunkBytes 2 [10, 11, 12, 13, 14] (List.range (calculateTotalChunks 2 5)) = 5 ∧
    0 < 5 - 2 * (calculateTotalChunks 2 5 - 1) ∧
    calculateTotalChunks 2 0 = 0 := by
  have h := chunk_planner_correct 2 5 [10, 11, 12, 13, 14] (by decide) (by decide)
  exact ⟨by decide, (h.1 (by decide)).2.1, (h.1 (by decide)).2.2.2.1, h.2⟩

/-! ### Client: retry policy (ChunkUploadService.ts, uploadChunkWithRetry) -/

/-- Observable behaviour of one `uploadChunkWithRetry` call: whether it returned
normally (`success = true`) or threw (`success = false`), how many times the
attempt function was called, the backoff delays (milliseconds) awaited between
consecutive attempts in order, and the chunk index passed to the `onError`
observer if it was invoked. -/
structure RetryResult where
  success : Bool
  calls : ℕ
  delays : List ℕ
  errored : Option ℕ
  deriving DecidableEq, Repr

/-- The `for (let attempt = 0; attempt < this.maxRetries; attempt++)` loop of
`uploadChunkWithRetry`, from attempt number `a` with `rem = maxRetries - a`
iterations left (the structural fuel mirrors the loop bound). On a failed
attempt other than the last, the code awaits `Math.pow(2, attempt) * 1000`
milliseconds; after the last failure it reports the chunk index to `onError`
and rethrows the last error. With `maxRetries = 0` the loop body never runs,
`lastError` stays `null`, `onError` is skipped and a generic error is thrown. -/
def retryFrom (maxRetries : ℕ) (attempt : ℕ → Bool) (chunkIndex : ℕ) : ℕ → ℕ → RetryResult
  | _, 0 => { success := false, calls := 0, delays := [], errored := none }
  | a, rem + 1 =>
    if attempt a then { success := true, calls := 1, delays := [], errored := none }
    else if a < maxRetries - 1 then
      let r := retryFrom maxRetries attempt chunkIndex (a + 1) rem
      { r with calls := r.calls + 1, delays := 2 ^ a * 1000 :: r.delays }
    else { success := false, calls := 1, delays := [], errored := some chunkIndex }

def uploadChunkWithRetry (maxRetries : ℕ) (attempt : ℕ → Bool) (chunkIndex : ℕ) : RetryResult :=
  retryFrom maxRetries attempt chunkIndex 0 maxRetries

theorem range_map_pow_cons (a k : ℕ) :
    (List.range (k + 1)).map (fun j => 2 ^ (a + j) * 1000)
      = 2 ^ a * 1000 :: (List.range k).map (fun j => 2 ^ (a + 1 + j) * 1000) := by
  rw [List.range_succ_eq_map, List.map_cons, List.map_map]
  refine congrArg₂ _ (by norm_num) ?_
  apply List.map_congr_left
  intro j _
  simp only [Function.comp]
  congr 1
  congr 1
  omega

theorem range_map_pow_cons_of_pos (a m : ℕ) (hm : 0 < m) :
    (List.range m).map (fun j => 2 ^ (a + j) * 1000)
      = 2 ^ a * 1000 :: (List.range (m - 1)).map (fun j => 2 ^ (a + 1 + j) * 1000) := by
  obtain ⟨k, rfl⟩ : ∃ k, m = k + 1 := ⟨m - 1, by omega⟩
  rw [range_map_pow_cons]
  simp

theorem retryFrom_succeeds (maxRetries : ℕ) (attempt : ℕ → Bool) (cidx : ℕ) :
    ∀ k a rem, a + rem = maxRetries → k < rem →
      (∀ j, a ≤ j → j < a + k → attempt j = false) → attempt (a + k) = true →
      retryFrom maxRetries attempt cidx a rem =
        { success := true, calls := k + 1,
          delays := (List.range k).map (fun j => 2 ^ (a + j) * 1000), errored := none } := by
  intro k
  induction k with
  | zero =>
    intro a rem harem hk hfail htrue
    match rem, hk with
    | rem + 1, _ =>
      simp only [retryFrom]
      rw [show a + 0 = a from rfl] at htrue
      simp [htrue]
  | succ k ih =>
    intro a rem harem hk hfail htrue
    match rem, hk with
    | rem + 1, hk =>
      have hfa : attempt a = false := hfail a (le_refl a) (by omega)
      have hlt : a < maxRetries - 1 := by omega
      have hrec := ih (a + 1) rem (by omega) (by omega)
        (fun j h1 h2 => hfail j (by omega) (by omega))
        (by rw [show a + 1 + k = a + (k + 1) from by omega]; exact htrue)
      simp only [retryFrom, hfa, Bool.false_eq_true, if_false, hlt, if_true, hrec]
      rw [range_map_pow_cons]

theorem retryFrom_exhausts (maxRetries : ℕ) (attempt : ℕ → Bool) (cidx : ℕ) :
    ∀ rem a, a + rem = maxRetries → 0 < rem →
      (∀ j, a ≤ j → j < maxRetries → attempt j = false) →
      retryFrom maxRetries attempt cidx a rem =
        { success := false, calls := rem,
          delays := (List.range (rem - 1)).map (fun j => 2 ^ (a + j) * 1000),
          errored := some cidx } := by
  intro rem
  induction rem with
  | zero => intro a _ h0; omega
  | succ rem ih =>
    intro a harem _ hfail
    have hfa : attempt a = false := hfail a (le_refl a) (by omega)
    rcases Nat.eq_zero_or_pos rem with hrem | hrem
    · subst hrem
      have hnlt : ¬ a < maxRetries - 1 := by omega
      simp [retryFrom, hfa, hnlt]
    · have hlt : a < maxRetries - 1 := by omega
      have hrec := ih (a + 1) (by omega) hrem
        (fun j h1 h2 => hfail j (by omega) h2)
      simp only [retryFrom, hfa, Bool.false_eq_true, if_false, hlt, if_true, hrec]
      rw [show rem + 1 - 1 = rem from by omega, range_map_pow_cons_of_pos a rem hrem]

/-- C3: with an attempt function failing exactly `k < maxRetries` times and then
succeeding, the retry wrapper succeeds after `k + 1` calls with backoff delays
`2^0, 2^1, …, 2^(k-1)` seconds (stored in milliseconds) between consecutive
attempts, and `onError` is not invoked; with `maxRetries` straight failures it
makes exactly `maxRetries` calls (never a `maxRetries + 1`-th), reports the
failing chunk's index to `onError`, and propagates the failure
(`success = false`, i.e. the last error is rethrown to the caller). -/
theorem retry_policy_correct (maxRetries k chunkIndex : ℕ) (attempt : ℕ → Bool)
    (hm : 1 ≤ maxRetries) :
    ((∀ a, a < k → attempt a = false) → attempt k = true → k < maxRetries →
      uploadChunkWithRetry maxRetries attempt chunkIndex =
        { success := true, calls := k + 1,
          delays := (List.range k).map (fun a => 2 ^ a * 1000), errored := none }) ∧
    ((∀ a, a < maxRetries → attempt a = false) →
      uploadChunkWithRetry maxRetries attempt chunkIndex =
        { success := false, calls := maxRetries,
          delays := (List.range (maxRetries - 1)).map (fun a => 2 ^ a * 1000),
          errored := some chunkIndex }) := by
  constructor
  · intro hfail htrue hk
    have h := retryFrom_succeeds maxRetries attempt chunkIndex k 0 maxRetries
      (by omega) hk (fun j h1 h2 => hfail j (by omega))
      (by rw [show (0 : ℕ) + k = k from by omega]; exact htrue)
    rw [uploadChunkWithRetry, h]
    simp only [Nat.zero_add]
  · intro hfail
    have h := retryFrom_exhausts maxRetries attempt chunkIndex maxRetries 0
      (by omega) (by omega) (fun j _ h2 => hfail j h2)
    rw [uploadChunkWithRetry, h]
    simp only [Nat.zero_add]

/-- Witness for `retry_policy_correct`: one failure then success with
`maxRetries = 3` gives two calls and a single one-second delay. -/
theorem retry_policy_correct_witness :
    uploadChunkWithRetry 3 (fun a => decide (1 ≤ a)) 7 =
      { success := true, calls := 1 + 1,
        delays := (List.range 1).map (fun a => 2 ^ a * 1000), errored := none } :=
  (retry_policy_correct 3 1 7 (fun a => decide (1 ≤ a)) (by decide)).1
    (fun a ha => by
      have : a = 0 := by omega
      subst this
      decide)
    (by decide) (by decide)

/-! ### C9: constructor validation -/

/-- C9 counterexample: constructing the service with negative (non-positive)
chunk size and retry count does not fail with `InvalidConfiguration`; the
constructor accepts and stores the negative values unchanged. -/
theorem constructor_accepts_nonpositive_cex :
    constructService (some (-5)) (some (-2)) = Except.ok (-5, -2) := rfl

/-- C9 amended: construction never fails — there is no validation and no
`InvalidConfiguration` error path. A supplied value of `0` (or an omitted
option) silently falls back to the defaults (1 MiB chunk size, 3 retries)
through JavaScript `||`, and negative values are stored unchanged. -/
theorem constructor_never_fails (chunkSize maxRetries : Option Int) :
    constructService chunkSize maxRetries
      = Except.ok (jsOr chunkSize (1024 * 1024), jsOr maxRetries 3) ∧
    (∀ e : ConfigError, constructService chunkSize maxRetries ≠ Except.error e) ∧
    jsOr (some 0) (1024 * 1024) = 1024 * 1024 ∧
    jsOr (some (-5)) (1024 * 1024) = -5 := by
  refine ⟨rfl, ?_, by decide, by decide⟩
  intro e h
  simp [constructService] at h

/-! ### Client: upload orchestrator (ChunkUploadService.ts, uploadFile / resumeUpload) -/

/-- The object passed to the `onProgress` observer. -/
structure UploadProgress where
  uploadedBytes : ℕ
  totalBytes : ℕ
  percentage : ℚ
  currentChunk : ℕ
  totalChunks : ℕ
  deriving DecidableEq, Repr

/-- `{ uploadedBytes, totalBytes, percentage: (uploadedBytes / file.size) * 100,
currentChunk: chunkIndex + 1, totalChunks }`. -/
def mkProgress (uploadedBytes totalBytes currentChunk totalChunks : ℕ) : UploadProgress :=
  { uploadedBytes := uploadedBytes, totalBytes := totalBytes,
    percentage := (uploadedBytes : ℚ) / (totalBytes : ℚ) * 100,
    currentChunk := currentChunk, totalChunks := totalChunks }

/-- Observable outcome of the per-chunk `for` loop: whether it ran to completion
without a throw, the chunk indices sent through the retry policy in order, the
`onProgress` and `onChunkComplete` events emitted in order, and the final value
of `uploadedBytes`. -/
structure LoopOut where
  ok : Bool
  transmitted : List ℕ
  progressEvents : List UploadProgress
  chunkCompleteEvents : List (ℕ × ℕ)
  uploadedBytes : ℕ
  deriving DecidableEq, Repr

/-- The result object of `uploadFile` / `resumeUpload` together with the events
observed during the call. -/
structure UploadResult where
  success : Bool
  uploadId : String
  message : String
  transmitted : List ℕ
  progressEvents : List UploadProgress
  chunkCompleteEvents : List (ℕ × ℕ)
  finalUploadedBytes : ℕ
  deriving DecidableEq, Repr

/-- The chunk loop of `uploadFile`, over the remaining chunk indices with the
current `uploadedBytes`. Each iteration slices
`[chunkIndex*chunkSize, min(chunkIndex*chunkSize + chunkSize, file.size))`,
sends it through `uploadChunkWithRetry`, adds `chunk.size` to `uploadedBytes`
and emits an `onProgress` and an `onChunkComplete` event; a throw from the
retry policy aborts the loop (caught by `uploadFile`'s `try`). -/
def uploadLoop (cs maxRetries : ℕ) (file : List ℕ) (att : ℕ → ℕ → Bool) (tc : ℕ) :
    List ℕ → ℕ → LoopOut
  | [], ub => { ok := true, transmitted := [], progressEvents := [],
                chunkCompleteEvents := [], uploadedBytes := ub }
  | i :: rest, ub =>
    let chunk := fileSlice file (i * cs) (min (i * cs + cs) file.length)
    let r := uploadChunkWithRetry maxRetries (att i) i
    if r.success then
      let ub2 := ub + chunk.length
      let o := uploadLoop cs maxRetries file att tc rest ub2
      { ok := o.ok, transmitted := i :: o.transmitted,
        progressEvents := mkProgress ub2 file.length (i + 1) tc :: o.progressEvents,
        chunkCompleteEvents := (i, tc) :: o.chunkCompleteEvents,
        uploadedBytes := o.uploadedBytes }
    else
      { ok := false, transmitted := [i], progressEvents := [],
        chunkCompleteEvents := [], uploadedBytes := ub }

/-- `uploadFile(file, uploadUrl, uploadId?)`. The network is abstracted by
`att : chunk index → attempt number → Bool`; `generatedId` stands for the
value `generateUploadId()` would produce. Failure of a chunk's whole retry
cycle is caught and returned as `{success: false, uploadId, message}`; the
failure message abstracts the rethrown last error by the code's fallback
error text. -/
def uploadFile (cs maxRetries : ℕ) (file : List ℕ) (att : ℕ → ℕ → Bool)
    (uploadId : Option String) (generatedId : String) : UploadResult :=
  let totalChunks := calculateTotalChunks cs file.length
  let currentUploadId := uploadId.getD generatedId
  let o := uploadLoop cs maxRetries file att totalChunks (List.range totalChunks) 0
  { success := o.ok, uploadId := currentUploadId,
    message := if o.ok then "File uploaded successfully" else "Upload failed after retries",
    transmitted := o.transmitted, progressEvents := o.progressEvents,
    chunkCompleteEvents := o.chunkCompleteEvents, finalUploadedBytes := o.uploadedBytes }

/-- The chunk loop of `resumeUpload`: identical to `uploadLoop` except that an
index contained in `completedChunks` is skipped (`continue`). -/
def resumeLoop (cs maxRetries : ℕ) (file : List ℕ) (att : ℕ → ℕ → Bool) (tc : ℕ)
    (completedChunks : List ℕ) : List ℕ → ℕ → LoopOut
  | [], ub => { ok := true, transmitted := [], progressEvents := [],
                chunkCompleteEvents := [], uploadedBytes := ub }
  | i :: rest, ub =>
    if completedChunks.contains i then
      resumeLoop cs maxRetries file att tc completedChunks rest ub
    else
      let chunk := fileSlice file (i * cs) (min (i * cs + cs) file.length)
      let r := uploadChunkWithRetry maxRetries (att i) i
      if r.success then
        let ub2 := ub + chunk.length
        let o := resumeLoop cs maxRetries file att tc completedChunks rest ub2
        { ok := o.ok, transmitted := i :: o.transmitted,
          progressEvents := mkProgress ub2 file.length (i + 1) tc :: o.progressEvents,
          chunkCompleteEvents := (i, tc) :: o.chunkCompleteEvents,
          uploadedBytes := o.uploadedBytes }
      else
        { ok := false, transmitted := [i], progressEvents := [],
          chunkCompleteEvents := [], uploadedBytes := ub }

/-- `resumeUpload(file, uploadUrl, uploadId, completedChunks)`: `uploadedBytes`
is seeded with `completedChunks.length * this.chunkSize`. -/
def resumeUpload (cs maxRetries : ℕ) (file : List ℕ) (att : ℕ → ℕ → Bool)
    (uploadId : String) (completedChunks : List ℕ) : UploadResult :=
  let totalChunks := calculateTotalChunks cs file.length
  let o := resumeLoop cs maxRetries file att totalChunks completedChunks
    (List.range totalChunks) (completedChunks.length * cs)
  { success := o.ok, uploadId := uploadId,
    message := if o.ok then "File upload resumed and completed successfully"
               else "Upload failed after retries",
    transmitted := o.transmitted, progressEvents := o.progressEvents,
    chunkCompleteEvents := o.chunkCompleteEvents, finalUploadedBytes := o.uploadedBytes }

/-- The progress-event trace produced by a run of the chunk loop over indices
`l` starting from `uploadedBytes = ub`, when every chunk in `l` succeeds. -/
def expectedProgress (cs : ℕ) (file : List ℕ) (tc : ℕ) : List ℕ → ℕ → List UploadProgress
  | [], _ => []
  | i :: rest, ub =>
    let ub2 := ub + (fileSlice file (i * cs) (min (i * cs + cs) file.length)).length
    mkProgress ub2 file.length (i + 1) tc :: expectedProgress cs file tc rest ub2

theorem uploadLoop_all_ok (cs mr : ℕ) (file : List ℕ) (att : ℕ → ℕ → Bool) (tc : ℕ) :
    ∀ (l : List ℕ) (ub : ℕ),
      (∀ i ∈ l, (uploadChunkWithRetry mr (att i) i).success = true) →
      uploadLoop cs mr file att tc l ub =
        { ok := true, transmitted := l,
          progressEvents := expectedProgress cs file tc l ub,
          chunkCompleteEvents := l.map (fun i => (i, tc)),
          uploadedBytes := ub + chunkBytes cs file l } := by
  intro l
  induction l with
  | nil => intro ub _; simp [uploadLoop, chunkBytes, expectedProgress]
  | cons i rest ih =>
    intro ub hok
    have hi : (uploadChunkWithRetry mr (att i) i).success = true := hok i (by simp)
    have hrec := ih (ub + (fileSlice file (i * cs) (min (i * cs + cs) file.length)).length)
      (fun j hj => hok j (by simp [hj]))
    have harith : ub + (fileSlice file (i * cs) (min (i * cs + cs) file.length)).length
        + chunkBytes cs file rest = ub + chunkBytes cs file (i :: rest) := by
      simp [chunkBytes]
      omega
    simp only [uploadLoop, hi, if_true, hrec, expectedProgress, List.map_cons, harith]

theorem uploadLoop_fails (cs mr : ℕ) (file : List ℕ) (att : ℕ → ℕ → Bool) (tc : ℕ) :
    ∀ (l1 : List ℕ) (f : ℕ) (l2 : List ℕ) (ub : ℕ),
      (∀ i ∈ l1, (uploadChunkWithRetry mr (att i) i).success = true) →
      (uploadChunkWithRetry mr (att f) f).success = false →
      uploadLoop cs mr file att tc (l1 ++ f :: l2) ub =
        { ok := false, transmitted := l1 ++ [f],
          progressEvents := expectedProgress cs file tc l1 ub,
          chunkCompleteEvents := l1.map (fun i => (i, tc)),
          uploadedBytes := ub + chunkBytes cs file l1 } := by
  intro l1
  induction l1 with
  | nil =>
    intro f l2 ub _ hf
    simp [uploadLoop, hf, chunkBytes, expectedProgress]
  | cons i rest ih =>
    intro f l2 ub hok hf
    have hi : (uploadChunkWithRetry mr (att i) i).success = true := hok i (by simp)
    have hrec := ih f l2 (ub + (fileSlice file (i * cs) (min (i * cs + cs) file.length)).length)
      (fun j hj => hok j (by simp [hj])) hf
    have harith : ub + (fileSlice file (i * cs) (min (i * cs + cs) file.length)).length
        + chunkBytes cs file rest = ub + chunkBytes cs file (i :: rest) := by
      simp [chunkBytes]
      omega
    simp only [List.cons_append, uploadLoop, hi, if_true, List.append_eq, hrec,
      expectedProgress, List.map_cons, harith]

theorem uploadLoop_transmitted_subset (cs mr : ℕ) (file : List ℕ) (att : ℕ → ℕ → Bool) (tc : ℕ) :
    ∀ (l : List ℕ) (ub : ℕ) (i : ℕ),
      i ∈ (uploadLoop cs mr file att tc l ub).transmitted → i ∈ l := by
  intro l
  induction l with
  | nil => intro ub i h; simp [uploadLoop] at h
  | cons j rest ih =>
    intro ub i h
    by_cases hj : (uploadChunkWithRetry mr (att j) j).success = true
    · simp only [uploadLoop, hj, if_true, List.mem_cons] at h
      rcases h with rfl | h
      · exact List.mem_cons_self _ _
      · exact List.mem_cons_of_mem j (ih _ i h)
    · rw [Bool.not_eq_true] at hj
      simp only [uploadLoop, hj, Bool.false_eq_true, if_false] at h
      simp at h
      simp [h]

theorem resumeLoop_eq_filter (cs mr : ℕ) (file : List ℕ) (att : ℕ → ℕ → Bool) (tc : ℕ)
    (comp : List ℕ) :
    ∀ (l : List ℕ) (ub : ℕ),
      resumeLoop cs mr file att tc comp l ub =
        uploadLoop cs mr file att tc (l.filter (fun i => !comp.contains i)) ub := by
  intro l
  induction l with
  | nil => intro ub; simp [resumeLoop, uploadLoop]
  | cons i rest ih =>
    intro ub
    by_cases hc : comp.contains i
    · simp only [resumeLoop, hc, if_true, List.filter_cons, Bool.not_true,
        Bool.false_eq_true, if_false, ih]
    · rw [Bool.not_eq_true] at hc
      simp only [resumeLoop, hc, Bool.false_eq_true, if_false, List.filter_cons,
        Bool.not_false, if_true, uploadLoop, ih]

/-- C4: `uploadFile` sends chunks strictly sequentially in ascending index order
from 0 (the transmitted sequence is an initial segment of `0, 1, 2, …`, each
chunk's retry cycle resolving before the next starts), emits one progress event
and one chunk-complete event after every successful chunk, and returns
`{success: true, uploadId}` when every chunk succeeds; if some chunk exhausts
its retries it returns `{success: false, uploadId, message}` without attempting
any further chunk and without throwing (the result is an ordinary return
value); moreover `success = true` only if every chunk succeeded. -/
theorem uploadFile_sequential_correct (cs mr : ℕ) (file : List ℕ) (att : ℕ → ℕ → Bool)
    (uploadId : Option String) (generatedId : String) :
    ((∀ i, i < calculateTotalChunks cs file.length →
        (uploadChunkWithRetry mr (att i) i).success = true) →
      uploadFile cs mr file att uploadId generatedId =
        { success := true, uploadId := uploadId.getD generatedId,
          message := "File uploaded successfully",
          transmitted := List.range (calculateTotalChunks cs file.length),
          progressEvents := expectedProgress cs file (calculateTotalChunks cs file.length)
            (List.range (calculateTotalChunks cs file.length)) 0,
          chunkCompleteEvents := (List.range (calculateTotalChunks cs file.length)).map
            (fun i => (i, calculateTotalChunks cs file.length)),
          finalUploadedBytes := chunkBytes cs file
            (List.range (calculateTotalChunks cs file.length)) }) ∧
    (∀ f, f < calculateTotalChunks cs file.length →
      (∀ i, i < f → (uploadChunkWithRetry mr (att i) i).success = true) →
      (uploadChunkWithRetry mr (att f) f).success = false →
      uploadFile cs mr file att uploadId generatedId =
        { success := false, uploadId := uploadId.getD generatedId,
          message := "Upload failed after retries",
          transmitted := List.range (f + 1),
          progressEvents := expectedProgress cs file (calculateTotalChunks cs file.length)
            (List.range f) 0,
          chunkCompleteEvents := (List.range f).map
            (fun i => (i, calculateTotalChunks cs file.length)),
          finalUploadedBytes := chunkBytes cs file (List.range f) }) ∧
    ((uploadFile cs mr file att uploadId generatedId).success = true →
      ∀ i, i < calculateTotalChunks cs file.length →
        (uploadChunkWithRetry mr (att i) i).success = true) := by
  have part2 : ∀ f, f < calculateTotalChunks cs file.length →
      (∀ i, i < f → (uploadChunkWithRetry mr (att i) i).success = true) →
      (uploadChunkWithRetry mr (att f) f).success = false →
      uploadFile cs mr file att uploadId generatedId =
        { success := false, uploadId := uploadId.getD generatedId,
          message := "Upload failed after retries",
          transmitted := List.range (f + 1),
          progressEvents := expectedProgress cs file (calculateTotalChunks cs file.length)
            (List.range f) 0,
          chunkCompleteEvents := (List.range f).map
            (fun i => (i, calculateTotalChunks cs file.length)),
          finalUploadedBytes := chunkBytes cs file (List.range f) } := by
    intro f hf hbefore hfail
    have hsplit : List.range (calculateTotalChunks cs file.length)
        = List.range f ++ f :: (List.range (calculateTotalChunks cs file.length - (f + 1))).map
            ((f + 1) + ·) := by
      rw [show calculateTotalChunks cs file.length
          = (f + 1) + (calculateTotalChunks cs file.length - (f + 1)) from by omega,
        List.range_add, List.range_succ]
      simp
    have h := uploadLoop_fails cs mr file att (calculateTotalChunks cs file.length)
      (List.range f) f
      ((List.range (calculateTotalChunks cs file.length - (f + 1))).map ((f + 1) + ·)) 0
      (fun i hi => hbefore i (List.mem_range.mp hi)) hfail
    simp only [uploadFile, hsplit, h, Nat.zero_add, Bool.false_eq_true, if_false,
      List.range_succ]
  refine ⟨?_, part2, ?_⟩
  · intro hall
    have h := uploadLoop_all_ok cs mr file att (calculateTotalChunks cs file.length)
      (List.range (calculateTotalChunks cs file.length)) 0
      (fun i hi => hall i (List.mem_range.mp hi))
    simp only [uploadFile, h, Nat.zero_add, if_true]
  · intro hsucc i hi
    by_contra hfailc
    rw [Bool.not_eq_true] at hfailc
    have hex : ∃ n, n < calculateTotalChunks cs file.length
        ∧ (uploadChunkWithRetry mr (att n) n).success = false := ⟨i, hi, hfailc⟩
    have hPf := Nat.find_spec hex
    have hbefore : ∀ j, j < Nat.find hex →
        (uploadChunkWithRetry mr (att j) j).success = true := by
      intro j hj
      have hnot := Nat.find_min hex hj
      cases hs : (uploadChunkWithRetry mr (att j) j).success with
      | true => rfl
      | false => exact absurd ⟨Nat.lt_trans hj hPf.1, hs⟩ hnot
    have h := part2 (Nat.find hex) hPf.1 hbefore hPf.2
    rw [h] at hsucc
    simp at hsucc

/-- Witness for `uploadFile_sequential_correct`: a 3-byte file with 2-byte
chunks and an always-succeeding transport. -/
theorem uploadFile_sequential_correct_witness :
    uploadFile 2 3 [1, 2, 3] (fun _ _ => true) (some "u") "g" =
      { success := true, uploadId := (some "u").getD "g",
        message := "File uploaded successfully",
        transmitted := List.range (calculateTotalChunks 2 ([1, 2, 3] : List ℕ).length),
        progressEvents := expectedProgress 2 [1, 2, 3]
          (calculateTotalChunks 2 ([1, 2, 3] : List ℕ).length)
          (List.range (calculateTotalChunks 2 ([1, 2, 3] : List ℕ).length)) 0,
        chunkCompleteEvents :=
          (List.range (calculateTotalChunks 2 ([1, 2, 3] : List ℕ).length)).map
            (fun i => (i, calculateTotalChunks 2 ([1, 2, 3] : List ℕ).length)),
        finalUploadedBytes := chunkBytes 2 [1, 2, 3]
          (List.range (calculateTotalChunks 2 ([1, 2, 3] : List ℕ).length)) } :=
  (uploadFile_sequential_correct 2 3 [1, 2, 3] (fun _ _ => true) (some "u") "g").1
    (fun _ _ => rfl)

theorem not_contains_iff (l : List ℕ) (i : ℕ) : (!l.contains i) = true ↔ i ∉ l := by
  simp

/-- C5: `resumeUpload` never transmits a chunk whose index is in
`completedChunks`; when the remaining chunks all succeed it transmits exactly
the indices of `[0, totalChunks)` not in `completedChunks`, each exactly once,
in ascending order; `uploadedBytes` is seeded with
`completedChunks.length * chunkSize` (so the final value is that seed plus the
bytes of the transmitted chunks); and with an empty `completedChunks` it behaves
exactly like `uploadFile` (same success flag, transmissions, events, byte count
and upload id). -/
theorem resumeUpload_skips_completed (cs mr : ℕ) (file : List ℕ) (att : ℕ → ℕ → Bool)
    (uploadId : String) (completed : List ℕ) :
    (∀ i ∈ completed, i ∉ (resumeUpload cs mr file att uploadId completed).transmitted) ∧
    ((∀ i, i < calculateTotalChunks cs file.length → i ∉ completed →
        (uploadChunkWithRetry mr (att i) i).success = true) →
      (resumeUpload cs mr file att uploadId completed).transmitted
          = (List.range (calculateTotalChunks cs file.length)).filter
              (fun i => !completed.contains i) ∧
      (resumeUpload cs mr file att uploadId completed).success = true ∧
      (∀ i, i < calculateTotalChunks cs file.length → i ∉ completed →
        (resumeUpload cs mr file att uploadId completed).transmitted.count i = 1) ∧
      (resumeUpload cs mr file att uploadId completed).transmitted.Pairwise (· < ·) ∧
      (resumeUpload cs mr file att uploadId completed).finalUploadedBytes
          = completed.length * cs
            + chunkBytes cs file ((List.range (calculateTotalChunks cs file.length)).filter
                (fun i => !completed.contains i))) ∧
    ((resumeUpload cs mr file att uploadId []).success
        = (uploadFile cs mr file att (some uploadId) uploadId).success ∧
      (resumeUpload cs mr file att uploadId []).transmitted
        = (uploadFile cs mr file att (some uploadId) uploadId).transmitted ∧
      (resumeUpload cs mr file att uploadId []).progressEvents
        = (uploadFile cs mr file att (some uploadId) uploadId).progressEvents ∧
      (resumeUpload cs mr file att uploadId []).chunkCompleteEvents
        = (uploadFile cs mr file att (some uploadId) uploadId).chunkCompleteEvents ∧
      (resumeUpload cs mr file att uploadId []).finalUploadedBytes
        = (uploadFile cs mr file att (some uploadId) uploadId).finalUploadedBytes ∧
      (resumeUpload cs mr file att uploadId []).uploadId
        = (uploadFile cs mr file att (some uploadId) uploadId).uploadId) := by
  refine ⟨?_, ?_, ?_⟩
  · intro i hic hmem
    simp only [resumeUpload, resumeLoop_eq_filter] at hmem
    have hfilter := uploadLoop_transmitted_subset cs mr file att
      (calculateTotalChunks cs file.length) _ _ i hmem
    have hprop := List.of_mem_filter hfilter
    rw [not_contains_iff] at hprop
    exact hprop hic
  · intro hall
    have hok : ∀ i ∈ (List.range (calculateTotalChunks cs file.length)).filter
        (fun i => !completed.contains i),
        (uploadChunkWithRetry mr (att i) i).success = true := by
      intro i hi
      have hr := List.mem_range.mp (List.mem_of_mem_filter hi)
      have hp := List.of_mem_filter hi
      rw [not_contains_iff] at hp
      exact hall i hr hp
    have h := uploadLoop_all_ok cs mr file att (calculateTotalChunks cs file.length)
      ((List.range (calculateTotalChunks cs file.length)).filter
        (fun i => !completed.contains i)) (completed.length * cs) hok
    have hnodup : ((List.range (calculateTotalChunks cs file.length)).filter
        (fun i => !completed.contains i)).Nodup :=
      List.Nodup.filter _ (List.nodup_range _)
    refine ⟨?_, ?_, ?_, ?_, ?_⟩
    · simp only [resumeUpload, resumeLoop_eq_filter, h]
    · simp only [resumeUpload, resumeLoop_eq_filter, h]
    · intro i hi hnc
      have hmemf : i ∈ (List.range (calculateTotalChunks cs file.length)).filter
          (fun i => !completed.contains i) :=
        List.mem_filter.mpr ⟨List.mem_range.mpr hi, (not_contains_iff completed i).mpr hnc⟩
      simp only [resumeUpload, resumeLoop_eq_filter, h]
      exact List.count_eq_one_of_mem hnodup hmemf
    · simp only [resumeUpload, resumeLoop_eq_filter, h]
      exact List.Pairwise.filter _ (List.pairwise_lt_range _)
    · simp only [resumeUpload, resumeLoop_eq_filter, h]
  · have hfilter_nil : ∀ l : List ℕ, l.filter (fun i => !(([] : List ℕ).contains i)) = l := by
      intro l
      simp
    simp only [resumeUpload, uploadFile, resumeLoop_eq_filter, hfilter_nil]
    simp

/-- Witness for `resumeUpload_skips_completed`: a 5-byte file with 2-byte
chunks resumed with chunk 1 already delivered. -/
theorem resumeUpload_skips_completed_witness :
    (resumeUpload 2 3 [1, 2, 3, 4, 5] (fun _ _ => true) "id" [1]).transmitted
        = (List.range (calculateTotalChunks 2 ([1, 2, 3, 4, 5] : List ℕ).length)).filter
            (fun i => !([1] : List ℕ).contains i) ∧
    (1 : ℕ) ∉ (resumeUpload 2 3 [1, 2, 3, 4, 5] (fun _ _ => true) "id" [1]).transmitted :=
  ⟨((resumeUpload_skips_completed 2 3 [1, 2, 3, 4, 5] (fun _ _ => true) "id" [1]).2.1
      (fun _ _ _ => rfl)).1,
   (resumeUpload_skips_completed 2 3 [1, 2, 3, 4, 5] (fun _ _ => true) "id" [1]).1
      1 (by decide)⟩

theorem chunkBytes_cons (cs : ℕ) (file : List ℕ) (i : ℕ) (l : List ℕ) :
    chunkBytes cs file (i :: l)
      = (fileSlice file (i * cs) (min (i * cs + cs) file.length)).length
        + chunkBytes cs file l := by
  simp [chunkBytes]

theorem chunkLen_le (cs : ℕ) (file : List ℕ) (i : ℕ) :
    (fileSlice file (i * cs) (min (i * cs + cs) file.length)).length ≤ cs := by
  rw [fileSlice_length]
  omega

theorem chunkBytes_le (cs : ℕ) (file : List ℕ) (l : List ℕ) :
    chunkBytes cs file l ≤ l.length * cs := by
  induction l with
  | nil => simp [chunkBytes]
  | cons i rest ih =>
    rw [chunkBytes_cons]
    have h1 := chunkLen_le cs file i
    have h2 : (i :: rest).length * cs = rest.length * cs + cs := by
      simp [List.length_cons]
      ring
    omega

theorem chunkBytes_lt_of_mem (cs : ℕ) (file : List ℕ) (l : List ℕ) (x : ℕ)
    (hx : x ∈ l)
    (hlt : (fileSlice file (x * cs) (min (x * cs + cs) file.length)).length < cs) :
    chunkBytes cs file l < l.length * cs := by
  obtain ⟨s, t, rfl⟩ := List.mem_iff_append.mp hx
  rw [chunkBytes_append, chunkBytes_cons]
  have h1 := chunkBytes_le cs file s
  have h2 := chunkBytes_le cs file t
  have h3 : (s ++ x :: t).length * cs = s.length * cs + t.length * cs + cs := by
    simp [List.length_append, List.length_cons]
    ring
  omega

theorem chunkBytes_filter_partition (cs : ℕ) (file : List ℕ) (p : ℕ → Bool) (l : List ℕ) :
    chunkBytes cs file (l.filter p) + chunkBytes cs file (l.filter (fun i => !p i))
      = chunkBytes cs file l := by
  induction l with
  | nil => simp [chunkBytes]
  | cons i rest ih =>
    by_cases hp : p i
    · simp only [List.filter_cons, hp, Bool.not_true, Bool.false_eq_true, if_false, if_true,
        chunkBytes_cons]
      omega
    · rw [Bool.not_eq_true] at hp
      simp only [List.filter_cons, hp, Bool.not_false, Bool.false_eq_true, if_false, if_true,
        chunkBytes_cons]
      omega

theorem expectedProgress_getLast (cs : ℕ) (file : List ℕ) (tc : ℕ) :
    ∀ (l : List ℕ) (ub : ℕ), l ≠ [] →
      ∃ c, (expectedProgress cs file tc l ub).getLast?
        = some (mkProgress (ub + chunkBytes cs file l) file.length c tc) := by
  intro l
  induction l with
  | nil => intro ub h; exact absurd rfl h
  | cons i rest ih =>
    intro ub _
    cases rest with
    | nil =>
      refine ⟨i + 1, ?_⟩
      simp [expectedProgress, chunkBytes]
    | cons j rest2 =>
      obtain ⟨c, hc⟩ := ih
        (ub + (fileSlice file (i * cs) (min (i * cs + cs) file.length)).length)
        (by simp)
      refine ⟨c, ?_⟩
      have hstep : (expectedProgress cs file tc (i :: j :: rest2) ub).getLast?
          = (expectedProgress cs file tc (j :: rest2)
              (ub + (fileSlice file (i * cs) (min (i * cs + cs) file.length)).length)).getLast? := by
        simp [expectedProgress, List.getLast?_cons_cons]
      rw [hstep, hc]
      have hAB : ub + (fileSlice file (i * cs) (min (i * cs + cs) file.length)).length
          + chunkBytes cs file (j :: rest2) = ub + chunkBytes cs file (i :: j :: rest2) := by
        simp only [chunkBytes_cons]
        omega
      rw [hAB]

/-- C10: when `fileSize` is not a multiple of `chunkSize`, the last chunk index
is among `completedChunks` and at least one chunk still has to be sent, the
seeded `uploadedBytes = completedChunks.length * chunkSize` overcounts the
short final chunk, so the final progress event reports `uploadedBytes`
strictly above `totalBytes` and a percentage strictly above 100. When
`completedChunks` covers every index of `[0, totalChunks)`, `resumeUpload`
returns success without transmitting any chunk or emitting any event. -/
theorem resume_progress_overshoot (cs mr : ℕ) (file : List ℕ) (att : ℕ → ℕ → Bool)
    (uploadId : String) (hcs : 1 ≤ cs) :
    (∀ completed : List ℕ,
      file.length % cs ≠ 0 →
      (calculateTotalChunks cs file.length - 1) ∈ completed →
      (∃ i, i < calculateTotalChunks cs file.length ∧ i ∉ completed) →
      (∀ i, i < calculateTotalChunks cs file.length → i ∉ completed →
        (uploadChunkWithRetry mr (att i) i).success = true) →
      ∃ e, (resumeUpload cs mr file att uploadId completed).progressEvents.getLast? = some e ∧
        file.length < e.uploadedBytes ∧ (100 : ℚ) < e.percentage) ∧
    (∀ completed : List ℕ,
      (∀ i, i < calculateTotalChunks cs file.length → i ∈ completed) →
      (resumeUpload cs mr file att uploadId completed).success = true ∧
      (resumeUpload cs mr file att uploadId completed).transmitted = [] ∧
      (resumeUpload cs mr file att uploadId completed).progressEvents = [] ∧
      (resumeUpload cs mr file att uploadId completed).chunkCompleteEvents = []) := by
  constructor
  · intro completed hmod hlast hgap hok
    have hfs0 : 0 < file.length := by
      rcases Nat.eq_zero_or_pos file.length with h | h
      · rw [h] at hmod
        simp at hmod
      · exact h
    have htc1 : 1 ≤ calculateTotalChunks cs file.length :=
      calculateTotalChunks_pos cs _ hcs hfs0
    have hbounds := calculateTotalChunks_bounds cs file.length hcs
    have hmul0 : calculateTotalChunks cs file.length * cs % cs = 0 := Nat.mul_mod_left _ _
    have hlt_strict : file.length < calculateTotalChunks cs file.length * cs := by
      rcases Nat.lt_or_ge file.length (calculateTotalChunks cs file.length * cs) with h | h
      · exact h
      · have : file.length = calculateTotalChunks cs file.length * cs := by omega
        rw [this] at hmod
        exact absurd hmul0 hmod
    have hsplit := tc_mul_split cs file.length hcs hfs0
    have hlastlen : (fileSlice file ((calculateTotalChunks cs file.length - 1) * cs)
        (min ((calculateTotalChunks cs file.length - 1) * cs + cs) file.length)).length < cs := by
      rw [fileSlice_length]
      omega
    have hok2 : ∀ i ∈ (List.range (calculateTotalChunks cs file.length)).filter
        (fun i => !completed.contains i),
        (uploadChunkWithRetry mr (att i) i).success = true := by
      intro i hi
      have hr := List.mem_range.mp (List.mem_of_mem_filter hi)
      have hp := List.of_mem_filter hi
      rw [not_contains_iff] at hp
      exact hok i hr hp
    have h := uploadLoop_all_ok cs mr file att (calculateTotalChunks cs file.length)
      ((List.range (calculateTotalChunks cs file.length)).filter
        (fun i => !completed.contains i)) (completed.length * cs) hok2
    have hTne : (List.range (calculateTotalChunks cs file.length)).filter
        (fun i => !completed.contains i) ≠ [] := by
      obtain ⟨i, hi, hni⟩ := hgap
      exact List.ne_nil_of_mem (List.mem_filter.mpr
        ⟨List.mem_range.mpr hi, (not_contains_iff _ _).mpr hni⟩)
    obtain ⟨c, hlastev⟩ := expectedProgress_getLast cs file
      (calculateTotalChunks cs file.length)
      ((List.range (calculateTotalChunks cs file.length)).filter
        (fun i => !completed.contains i)) (completed.length * cs) hTne
    have hpart := chunkBytes_filter_partition cs file (fun i => completed.contains i)
      (List.range (calculateTotalChunks cs file.length))
    have hrange : chunkBytes cs file (List.range (calculateTotalChunks cs file.length))
        = file.length := by
      rw [chunkBytes_range]
      omega
    have hmemD : (calculateTotalChunks cs file.length - 1)
        ∈ (List.range (calculateTotalChunks cs file.length)).filter
            (fun i => completed.contains i) :=
      List.mem_filter.mpr ⟨List.mem_range.mpr (by omega), by simp [hlast]⟩
    have hDlt := chunkBytes_lt_of_mem cs file
      ((List.range (calculateTotalChunks cs file.length)).filter
        (fun i => completed.contains i))
      (calculateTotalChunks cs file.length - 1) hmemD hlastlen
    have hDsub : ((List.range (calculateTotalChunks cs file.length)).filter
        (fun i => completed.contains i)) ⊆ completed := by
      intro x hx
      have hc : completed.contains x = true := List.of_mem_filter hx
      exact List.elem_iff.mp hc
    have hDnodup : ((List.range (calculateTotalChunks cs file.length)).filter
        (fun i => completed.contains i)).Nodup :=
      List.Nodup.filter _ (List.nodup_range _)
    have hDlen : ((List.range (calculateTotalChunks cs file.length)).filter
        (fun i => completed.contains i)).length ≤ completed.length :=
      List.Subperm.length_le (List.subperm_of_subset hDnodup hDsub)
    have hDlen_cs : ((List.range (calculateTotalChunks cs file.length)).filter
        (fun i => completed.contains i)).length * cs ≤ completed.length * cs :=
      Nat.mul_le_mul_right cs hDlen
    have hkey : file.length < completed.length * cs
        + chunkBytes cs file ((List.range (calculateTotalChunks cs file.length)).filter
            (fun i => !completed.contains i)) := by
      omega
    have hpe : (resumeUpload cs mr file att uploadId completed).progressEvents
        = expectedProgress cs file (calculateTotalChunks cs file.length)
            ((List.range (calculateTotalChunks cs file.length)).filter
              (fun i => !completed.contains i)) (completed.length * cs) := by
      simp only [resumeUpload, resumeLoop_eq_filter, h]
    refine ⟨mkProgress (completed.length * cs
        + chunkBytes cs file ((List.range (calculateTotalChunks cs file.length)).filter
            (fun i => !completed.contains i))) file.length c
        (calculateTotalChunks cs file.length), ?_, ?_, ?_⟩
    · rw [hpe]
      exact hlastev
    · simpa [mkProgress] using hkey
    · have hfsq : (0 : ℚ) < (file.length : ℚ) := by exact_mod_cast hfs0
      have hub : ((file.length : ℕ) : ℚ) < ((completed.length * cs
          + chunkBytes cs file ((List.range (calculateTotalChunks cs file.length)).filter
              (fun i => !completed.contains i)) : ℕ) : ℚ) := by
        exact_mod_cast hkey
      have h1 : (1 : ℚ) < ((completed.length * cs
          + chunkBytes cs file ((List.range (calculateTotalChunks cs file.length)).filter
              (fun i => !completed.contains i)) : ℕ) : ℚ) / (file.length : ℚ) := by
        rw [lt_div_iff₀ hfsq, one_mul]
        exact hub
      have h2 : (1 : ℚ) * 100 < ((completed.length * cs
          + chunkBytes cs file ((List.range (calculateTotalChunks cs file.length)).filter
              (fun i => !completed.contains i)) : ℕ) : ℚ) / (file.length : ℚ) * 100 :=
        mul_lt_mul_of_pos_right h1 (by norm_num)
      simpa [mkProgress] using h2
  · intro completed hall
    have hTnil : (List.range (calculateTotalChunks cs file.length)).filter
        (fun i => !completed.contains i) = [] := by
      apply List.filter_eq_nil_iff.mpr
      intro a ha
      have := hall a (List.mem_range.mp ha)
      simp [this]
    simp only [resumeUpload, resumeLoop_eq_filter, hTnil, uploadLoop]
    simp

/-- Witness for `resume_progress_overshoot`: a 3-byte file with 2-byte chunks
(chunks of 2 and 1 bytes) resumed with the short final chunk already counted. -/
theorem resume_progress_overshoot_witness :
    (∃ e, (resumeUpload 2 3 [1, 2, 3] (fun _ _ => true) "u" [1]).progressEvents.getLast?
        = some e ∧ ([1, 2, 3] : List ℕ).length < e.uploadedBytes
        ∧ (100 : ℚ) < e.percentage) ∧
    (resumeUpload 2 3 [1, 2, 3] (fun _ _ => true) "u" [0, 1]).transmitted = [] :=
  ⟨(resume_progress_overshoot 2 3 [1, 2, 3] (fun _ _ => true) "u" (by decide)).1 [1]
      (by decide) (by decide) ⟨0, by decide, by decide⟩ (fun _ _ _ => rfl),
   ((resume_progress_overshoot 2 3 [1, 2, 3] (fun _ _ => true) "u" (by decide)).2 [0, 1]
      (by
        intro i hi
        have htc : calculateTotalChunks 2 ([1, 2, 3] : List ℕ).length = 2 := rfl
        rw [htc] at hi
        simp only [List.mem_cons, List.not_mem_nil, or_false]
        omega)).2.1⟩

/-! ### Server: session registry, chunk store and reassembly
(example/server.ts: the `uploads` map, `app.post(upload)` and `mergeChunks`) -/

/-- One entry of the server's `uploads` map. -/
structure UploadInfo where
  fileName : String
  fileSize : ℕ
  totalChunks : ℕ
  receivedChunks : Finset ℕ
  deriving DecidableEq

/-- The `uploads` map, keyed by `uploadId`. -/
def Registry : Type := String → Option UploadInfo

/-- The staged chunk files `uploads/chunks/<uploadId>-chunk-<i>`, keyed by
`(uploadId, chunkIndex)`, each holding the staged bytes. -/
def ChunkStore : Type := String × ℕ → Option (List ℕ)

def setSession (reg : Registry) (id : String) (info : UploadInfo) : Registry :=
  fun x => if x = id then some info else reg x

def removeSession (reg : Registry) (id : String) : Registry :=
  fun x => if x = id then none else reg x

def setChunk (store : ChunkStore) (key : String × ℕ) (bytes : List ℕ) : ChunkStore :=
  fun k => if k = key then some bytes else store k

def removeChunk (store : ChunkStore) (key : String × ℕ) : ChunkStore :=
  fun k => if k = key then none else store k

/-- Whole observable server state: the in-memory `uploads` map, the staged
chunk files, and the artifacts written to `uploads/files` (in creation order;
a failed merge leaves its partially-written output file behind because the
write stream is never closed on the exception path). -/
structure ServerState where
  uploads : Registry
  chunkFiles : ChunkStore
  finalFiles : List (List ℕ)

/-- Outcome of `mergeChunks`: either the concatenated artifact together with
the store after deleting all staged chunks, or — when reading a staged chunk
fails — the index at which the loop threw, the store at that moment (chunks
with smaller indices already unlinked), and the partial output written so far. -/
inductive MergeResult where
  | ok (artifact : List ℕ) (store : ChunkStore)
  | fail (failedIndex : ℕ) (store : ChunkStore) (writtenSoFar : List ℕ)

/-- The `for (let i = 0; i < uploadInfo.totalChunks; i++)` loop of
`mergeChunks`: read staged chunk `i` (`readFileSync` throws if it is missing),
append it to the output stream, then `unlinkSync` it. Structural recursion on
the number of remaining chunks. -/
def mergeChunksAux (uploadId : String) : ℕ → ℕ → ChunkStore → List ℕ → MergeResult
  | 0, _, store, acc => MergeResult.ok acc store
  | rem + 1, i, store, acc =>
    match store (uploadId, i) with
    | none => MergeResult.fail i store acc
    | some bytes =>
      mergeChunksAux uploadId rem (i + 1) (removeChunk store (uploadId, i)) (acc ++ bytes)

/-- `mergeChunks(uploadId, uploadInfo)`, concatenating staged chunks
`0 … totalChunks - 1` in ascending index order. -/
def mergeChunks (uploadId : String) (totalChunks : ℕ) (store : ChunkStore) : MergeResult :=
  mergeChunksAux uploadId totalChunks 0 store []

/-- The JSON `message` strings the upload endpoint can answer with. -/
inductive ServerMessage where
  | uploadCompleted
  | chunkReceived (currentChunk totalChunks : ℕ)
  | chunkUploadFailed
  deriving DecidableEq, Repr

/-- The literal response text for each message. -/
def ServerMessage.text : ServerMessage → String
  | ServerMessage.uploadCompleted => "File upload completed"
  | ServerMessage.chunkReceived c t => "Chunk " ++ toString c ++ "/" ++ toString t ++ " received"
  | ServerMessage.chunkUploadFailed => "Chunk upload failed"

/-- The JSON response of the upload endpoint. -/
structure ChunkResponse where
  status : ℕ
  success : Bool
  message : ServerMessage
  deriving DecidableEq, Repr

/-- The session the handler works with after the initialization step: the
existing entry of the `uploads` map, or the fresh one just inserted for a
previously-unseen `uploadId`. -/
def sessionView (reg : Registry) (uploadId fileName : String)
    (fileSize totalChunks : ℕ) : UploadInfo :=
  match reg uploadId with
  | some info => info
  | none => { fileName := fileName, fileSize := fileSize, totalChunks := totalChunks,
              receivedChunks := ∅ }

/-- The `app.post(upload)` handler: initialize the session if unseen, stage
the chunk bytes under `(uploadId, chunkIndex)` (overwriting any previous file
at that path), add the index to `receivedChunks`, and if the received set's
size equals the request's `totalChunks`, run `mergeChunks` (over the session's
`totalChunks`) and delete the session. A throw inside `mergeChunks` skips
`uploads.delete` and is answered by the `catch` with a 500 failure response. -/
def receiveChunk (st : ServerState) (uploadId : String) (chunkIndex totalChunks : ℕ)
    (fileName : String) (fileSize : ℕ) (bytes : List ℕ) : ChunkResponse × ServerState :=
  let info := sessionView st.uploads uploadId fileName fileSize totalChunks
  let store1 := setChunk st.chunkFiles (uploadId, chunkIndex) bytes
  let info2 := { info with receivedChunks := insert chunkIndex info.receivedChunks }
  let uploads2 := setSession st.uploads uploadId info2
  if info2.receivedChunks.card = totalChunks then
    match mergeChunks uploadId info2.totalChunks store1 with
    | MergeResult.ok artifact store2 =>
      ({ status := 200, success := true, message := ServerMessage.uploadCompleted },
       { uploads := removeSession uploads2 uploadId, chunkFiles := store2,
         finalFiles := st.finalFiles ++ [artifact] })
    | MergeResult.fail _ store2 writtenOut =>
      ({ status := 500, success := false, message := ServerMessage.chunkUploadFailed },
       { uploads := uploads2, chunkFiles := store2,
         finalFiles := st.finalFiles ++ [writtenOut] })
  else
    ({ status := 200, success := true,
       message := ServerMessage.chunkReceived (chunkIndex + 1) totalChunks },
     { uploads := uploads2, chunkFiles := store1, finalFiles := st.finalFiles })

/-- The body of the status endpoint's 200 response. -/
structure StatusResponse where
  totalChunks : ℕ
  receivedChunks : Finset ℕ
  progress : ℚ
  deriving DecidableEq

/-- `GET upload-status/:uploadId`: `none` models the 404 not-found response. -/
def getStatus (st : ServerState) (uploadId : String) : Option StatusResponse :=
  match st.uploads uploadId with
  | none => none
  | some info =>
    some { totalChunks := info.totalChunks, receivedChunks := info.receivedChunks,
           progress := (info.receivedChunks.card : ℚ) / (info.totalChunks : ℚ) * 100 }

theorem pair_ne_of_snd_ne (id : String) (a b : ℕ) (h : a ≠ b) : (id, a) ≠ (id, b) := by
  intro he
  exact h (congrArg Prod.snd he)

/-- The byte range the client stages for chunk `n`:
`file.slice(n*chunkSize, min(n*chunkSize + chunkSize, file.size))`. -/
def chunkOf (cs : ℕ) (file : List ℕ) (n : ℕ) : List ℕ :=
  fileSlice file (n * cs) (min (n * cs + cs) file.length)

theorem chunkOf_length (cs : ℕ) (file : List ℕ) (n : ℕ) :
    (chunkOf cs file n).length = min (n * cs + cs) file.length - n * cs :=
  fileSlice_length file n cs

theorem range_map_join_succ (content : ℕ → List ℕ) (i rem : ℕ) :
    ((List.range (rem + 1)).map (fun k => content (i + k))).flatten
      = content i ++ ((List.range rem).map (fun k => content (i + 1 + k))).flatten := by
  rw [List.range_succ_eq_map, List.map_cons, List.flatten_cons, List.map_map]
  refine congrArg₂ _ (by rw [Nat.add_zero]) ?_
  refine congrArg _ ?_
  apply List.map_congr_left
  intro k _
  simp only [Function.comp]
  congr 1
  omega

theorem mergeChunksAux_ok (uploadId : String) (content : ℕ → List ℕ) :
    ∀ (rem i : ℕ) (store : ChunkStore) (acc : List ℕ),
      (∀ j, i ≤ j → j < i + rem → store (uploadId, j) = some (content j)) →
      ∃ store2, mergeChunksAux uploadId rem i store acc
        = MergeResult.ok (acc ++ ((List.range rem).map (fun k => content (i + k))).flatten)
            store2 := by
  intro rem
  induction rem with
  | zero =>
    intro i store acc _
    exact ⟨store, by simp [mergeChunksAux]⟩
  | succ rem ih =>
    intro i store acc hstore
    have hi : store (uploadId, i) = some (content i) := hstore i (le_refl i) (by omega)
    obtain ⟨store2, h2⟩ := ih (i + 1) (removeChunk store (uploadId, i)) (acc ++ content i)
      (fun j h1 h2 => by
        have hne : (uploadId, j) ≠ (uploadId, i) := pair_ne_of_snd_ne _ _ _ (by omega)
        rw [removeChunk, if_neg hne]
        exact hstore j (by omega) (by omega))
    refine ⟨store2, ?_⟩
    simp only [mergeChunksAux, hi]
    rw [h2, range_map_join_succ, List.append_assoc]

theorem join_slices (cs : ℕ) (file : List ℕ) :
    ∀ (m k : ℕ), file.length ≤ (k + m) * cs →
      ((List.range m).map (fun j => chunkOf cs file (k + j))).flatten
        = file.drop (min (k * cs) file.length) := by
  intro m
  induction m with
  | zero =>
    intro k hk
    rw [Nat.add_zero] at hk
    have hmin : min (k * cs) file.length = file.length := by omega
    rw [hmin]
    simp [List.drop_length]
  | succ m ih =>
    intro k hk
    rw [range_map_join_succ (chunkOf cs file) k m]
    have hrec := ih (k + 1) (by rw [show (k + 1) + m = k + (m + 1) from by omega]; exact hk)
    rw [hrec]
    have hexp : (k + 1) * cs = k * cs + cs := by ring
    unfold chunkOf fileSlice
    by_cases hks : k * cs ≤ file.length
    · have hm1 : min (k * cs) file.length = k * cs := by omega
      have hgoal : min ((k + 1) * cs) file.length
          = k * cs + (min (k * cs + cs) file.length - k * cs) := by omega
      rw [hm1, hgoal]
      rw [show file.drop (k * cs + (min (k * cs + cs) file.length - k * cs))
          = (file.drop (k * cs)).drop (min (k * cs + cs) file.length - k * cs) from by
        rw [List.drop_drop]]
      exact List.take_append_drop _ _
    · have h1 : min (k * cs) file.length = file.length := by omega
      have h2 : min (k * cs + cs) file.length = file.length := by omega
      have h3 : min ((k + 1) * cs) file.length = file.length := by omega
      rw [h1, h2, h3]
      have h4 : file.length - k * cs = 0 := by omega
      rw [h4]
      simp [List.drop_length]

theorem mergeChunks_ok (uploadId : String) (cs : ℕ) (file : List ℕ) (store : ChunkStore)
    (tc : ℕ) (htc : file.length ≤ tc * cs)
    (hstore : ∀ i, i < tc → store (uploadId, i) = some (chunkOf cs file i)) :
    ∃ store2, mergeChunks uploadId tc store = MergeResult.ok file store2 := by
  obtain ⟨store2, h⟩ := mergeChunksAux_ok uploadId (chunkOf cs file) tc 0 store []
    (fun j _ h2 => hstore j (by omega))
  refine ⟨store2, ?_⟩
  simp only [Nat.zero_add] at h
  have hjs := join_slices cs file tc 0 (by rw [Nat.zero_add]; exact htc)
  simp only [Nat.zero_add] at hjs
  rw [mergeChunks, h, hjs]
  simp

/-- C6: for a completed session whose staged chunks `0 … totalChunks - 1` hold
the byte ranges of the source file, `mergeChunks` produces exactly the source
file by concatenating them in ascending index order (hence the artifact length
equals `fileSize`); in particular a 2,500,000-byte file with a 1,000,000-byte
chunk size yields 3 chunks of 1,000,000 / 1,000,000 / 500,000 bytes and a
2,500,000-byte artifact. -/
theorem reassembly_concat_correct (cs fs : ℕ) (file : List ℕ) (uploadId : String)
    (store : ChunkStore) (hcs : 1 ≤ cs) (hfile : file.length = fs)
    (hstore : ∀ i, i < calculateTotalChunks cs fs →
      store (uploadId, i) = some (chunkOf cs file i)) :
    (∃ store2, mergeChunks uploadId (calculateTotalChunks cs fs) store
        = MergeResult.ok file store2) ∧
    file.length = fs ∧
    (fs = 2500000 → cs = 1000000 →
      calculateTotalChunks cs fs = 3 ∧
      (chunkOf cs file 0).length = 1000000 ∧
      (chunkOf cs file 1).length = 1000000 ∧
      (chunkOf cs file 2).length = 500000) := by
  refine ⟨?_, hfile, ?_⟩
  · subst hfile
    exact mergeChunks_ok uploadId cs file store _
      (calculateTotalChunks_bounds cs _ hcs).1 hstore
  · intro h25 h10
    subst h10
    have htc : calculateTotalChunks 1000000 fs = 3 := by
      rw [h25]
      norm_num [calculateTotalChunks]
    refine ⟨htc, ?_, ?_, ?_⟩
    · rw [chunkOf_length, hfile, h25]
      norm_num
    · rw [chunkOf_length, hfile, h25]
      norm_num
    · rw [chunkOf_length, hfile, h25]
      norm_num

/-- Witness for `reassembly_concat_correct`: a fully staged 5-byte file in
2-byte chunks reassembles to the original bytes. -/
theorem reassembly_concat_correct_witness :
    ∃ store2, mergeChunks "u" (calculateTotalChunks 2 5)
        (fun k => if k.1 = "u" ∧ k.2 < 3 then some (chunkOf 2 [5, 6, 7, 8, 9] k.2) else none)
      = MergeResult.ok [5, 6, 7, 8, 9] store2 :=
  (reassembly_concat_correct 2 5 [5, 6, 7, 8, 9] "u"
    (fun k => if k.1 = "u" ∧ k.2 < 3 then some (chunkOf 2 [5, 6, 7, 8, 9] k.2) else none)
    (by decide) rfl
    (by
      intro i hi
      have h3 : i < 3 := by
        have : calculateTotalChunks 2 5 = 3 := rfl
        omega
      simp [h3])).1

/-- C1: `receiveChunk` answers with the "File upload completed" response
exactly when the received set (after adding this chunk) has cardinality
`totalChunks`; in that case the Reassembly Engine runs (one more final
artifact exists afterwards), the session is deleted from the registry
immediately afterwards, and a subsequent status query for that `uploadId`
answers not-found. Hypotheses: the request's `totalChunks` agrees with the
session's, all indices stay below `totalChunks`, and every previously
received index is actually staged — all maintained by the protocol's client. -/
theorem receiveChunk_completion_iff (st : ServerState) (uploadId fileName : String)
    (chunkIndex totalChunks fileSize : ℕ) (bytes : List ℕ)
    (hconsistent : (sessionView st.uploads uploadId fileName fileSize totalChunks).totalChunks
        = totalChunks)
    (hrange : insert chunkIndex
        (sessionView st.uploads uploadId fileName fileSize totalChunks).receivedChunks
        ⊆ Finset.range totalChunks)
    (hstaged : ∀ j ∈ (sessionView st.uploads uploadId fileName fileSize
        totalChunks).receivedChunks, st.chunkFiles (uploadId, j) ≠ none) :
    ((receiveChunk st uploadId chunkIndex totalChunks fileName fileSize bytes).1.message
        = ServerMessage.uploadCompleted ↔
      (insert chunkIndex (sessionView st.uploads uploadId fileName fileSize
        totalChunks).receivedChunks).card = totalChunks) ∧
    ((insert chunkIndex (sessionView st.uploads uploadId fileName fileSize
        totalChunks).receivedChunks).card = totalChunks →
      (receiveChunk st uploadId chunkIndex totalChunks fileName fileSize
          bytes).2.finalFiles.length = st.finalFiles.length + 1 ∧
      (receiveChunk st uploadId chunkIndex totalChunks fileName fileSize
          bytes).2.uploads uploadId = none ∧
      getStatus (receiveChunk st uploadId chunkIndex totalChunks fileName fileSize
          bytes).2 uploadId = none) := by
  by_cases hcard : (insert chunkIndex (sessionView st.uploads uploadId fileName fileSize
      totalChunks).receivedChunks).card = totalChunks
  · have hset : insert chunkIndex (sessionView st.uploads uploadId fileName fileSize
        totalChunks).receivedChunks = Finset.range totalChunks :=
      Finset.eq_of_subset_of_card_le hrange (by rw [Finset.card_range, hcard])
    have hstore1 : ∀ j, 0 ≤ j → j < 0 + totalChunks →
        setChunk st.chunkFiles (uploadId, chunkIndex) bytes (uploadId, j)
          = some (if j = chunkIndex then bytes
                  else (st.chunkFiles (uploadId, j)).getD []) := by
      intro j _ hj
      rw [Nat.zero_add] at hj
      by_cases hjc : j = chunkIndex
      · subst hjc
        rw [setChunk, if_pos rfl, if_pos rfl]
      · rw [setChunk, if_neg (pair_ne_of_snd_ne _ _ _ hjc), if_neg hjc]
        have hjmem : j ∈ insert chunkIndex (sessionView st.uploads uploadId fileName
            fileSize totalChunks).receivedChunks := by
          rw [hset]
          exact Finset.mem_range.mpr hj
        have hjrec : j ∈ (sessionView st.uploads uploadId fileName fileSize
            totalChunks).receivedChunks := by
          rcases Finset.mem_insert.mp hjmem with h | h
          · exact absurd h hjc
          · exact h
        have hne := hstaged j hjrec
        cases hopt : st.chunkFiles (uploadId, j) with
        | none => exact absurd hopt hne
        | some b => simp
    obtain ⟨store2, hm⟩ := mergeChunksAux_ok uploadId
      (fun j => if j = chunkIndex then bytes else (st.chunkFiles (uploadId, j)).getD [])
      totalChunks 0 (setChunk st.chunkFiles (uploadId, chunkIndex) bytes) [] hstore1
    have hm2 : mergeChunks uploadId (sessionView st.uploads uploadId fileName fileSize
        totalChunks).totalChunks (setChunk st.chunkFiles (uploadId, chunkIndex) bytes)
        = MergeResult.ok ([] ++ ((List.range totalChunks).map
            (fun k => if 0 + k = chunkIndex then bytes
                      else (st.chunkFiles (uploadId, 0 + k)).getD [])).flatten) store2 := by
      rw [hconsistent, mergeChunks]
      exact hm
    refine ⟨?_, ?_⟩
    · simp only [receiveChunk, hcard, if_true, hm2]
    · intro _
      refine ⟨?_, ?_, ?_⟩
      · simp only [receiveChunk, hcard, if_true, hm2]
        simp
      · simp only [receiveChunk, hcard, if_true, hm2]
        simp [removeSession]
      · simp only [getStatus, receiveChunk, hcard, if_true, hm2]
        simp [removeSession]
  · refine ⟨?_, fun h => absurd h hcard⟩
    simp only [receiveChunk, hcard, if_false]
    simp

/-- A server that has not yet received any chunk. -/
def emptyState : ServerState :=
  { uploads := fun _ => none, chunkFiles := fun _ => none, finalFiles := [] }

/-- Witness for `receiveChunk_completion_iff`: a fresh single-chunk upload
completes on its first chunk and the session is purged. -/
theorem receiveChunk_completion_iff_witness :
    ((receiveChunk emptyState "u" 0 1 "f.txt" 3 [7, 7, 7]).1.message
      = ServerMessage.uploadCompleted ↔
      (insert 0 (sessionView emptyState.uploads "u" "f.txt" 3 1).receivedChunks).card = 1) ∧
    ((insert 0 (sessionView emptyState.uploads "u" "f.txt" 3 1).receivedChunks).card = 1 →
      (receiveChunk emptyState "u" 0 1 "f.txt" 3 [7, 7, 7]).2.finalFiles.length
        = emptyState.finalFiles.length + 1 ∧
      (receiveChunk emptyState "u" 0 1 "f.txt" 3 [7, 7, 7]).2.uploads "u" = none ∧
      getStatus (receiveChunk emptyState "u" 0 1 "f.txt" 3 [7, 7, 7]).2 "u" = none) :=
  receiveChunk_completion_iff emptyState "u" "f.txt" 0 1 3 [7, 7, 7]
    (by decide) (by decide)
    (by
      intro j hj
      simp [sessionView, emptyState] at hj)

/-- C8: re-delivering an already-received `(uploadId, chunkIndex)` to a live
session (received count still below `totalChunks`) leaves the size of the
session's `receivedChunks` set unchanged — the registry entry is literally
unchanged — and replaces rather than duplicates the staged bytes for that key
(the key maps to the delivered bytes and every other key is untouched);
the request is answered with success. -/
theorem receiveChunk_idempotent (st : ServerState) (uploadId fileName : String)
    (chunkIndex totalChunks fileSize : ℕ) (bytes : List ℕ) (info : UploadInfo)
    (hsess : st.uploads uploadId = some info)
    (hmem : chunkIndex ∈ info.receivedChunks)
    (hlive : info.receivedChunks.card < totalChunks) :
    (insert chunkIndex info.receivedChunks).card = info.receivedChunks.card ∧
    (receiveChunk st uploadId chunkIndex totalChunks fileName fileSize
        bytes).2.uploads uploadId = some info ∧
    (receiveChunk st uploadId chunkIndex totalChunks fileName fileSize
        bytes).2.chunkFiles (uploadId, chunkIndex) = some bytes ∧
    (∀ k, k ≠ (uploadId, chunkIndex) →
      (receiveChunk st uploadId chunkIndex totalChunks fileName fileSize
        bytes).2.chunkFiles k = st.chunkFiles k) ∧
    (receiveChunk st uploadId chunkIndex totalChunks fileName fileSize
        bytes).1.success = true := by
  have hview : sessionView st.uploads uploadId fileName fileSize totalChunks = info := by
    simp [sessionView, hsess]
  have hins : insert chunkIndex info.receivedChunks = info.receivedChunks :=
    Finset.insert_eq_self.mpr hmem
  have hcard : ¬ ((insert chunkIndex info.receivedChunks).card = totalChunks) := by
    rw [hins]
    omega
  have hinfo2 : { info with receivedChunks := insert chunkIndex info.receivedChunks }
      = info := by
    rw [hins]
  refine ⟨by rw [hins], ?_, ?_, ?_, ?_⟩
  · simp only [receiveChunk, hview, hinfo2, hcard, if_false]
    simp [setSession]
  · simp only [receiveChunk, hview, hinfo2, hcard, if_false]
    simp [setChunk]
  · intro k hk
    simp only [receiveChunk, hview, hinfo2, hcard, if_false]
    simp [setChunk, hk]
  · simp only [receiveChunk, hview, hinfo2, hcard, if_false]

/-- A server state holding a live two-chunk session that has received and
staged chunk 0. -/
def halfDoneState : ServerState :=
  { uploads := fun x => if x = "u" then
      some { fileName := "f", fileSize := 3, totalChunks := 2, receivedChunks := {0} }
      else none,
    chunkFiles := fun k => if k = ("u", 0) then some [9] else none,
    finalFiles := [] }

/-- Witness for `receiveChunk_idempotent`: chunk 0 of a two-chunk session is
delivered a second time with the same bytes. -/
theorem receiveChunk_idempotent_witness :
    (insert 0 ({0} : Finset ℕ)).card = ({0} : Finset ℕ).card ∧
    (receiveChunk halfDoneState "u" 0 2 "f" 3 [9]).2.uploads "u"
      = some { fileName := "f", fileSize := 3, totalChunks := 2, receivedChunks := {0} } ∧
    (receiveChunk halfDoneState "u" 0 2 "f" 3 [9]).2.chunkFiles ("u", 0) = some [9] ∧
    (receiveChunk halfDoneState "u" 0 2 "f" 3 [9]).1.success = true :=
  have h := receiveChunk_idempotent halfDoneState "u" "f" 0 2 3 [9]
    { fileName := "f", fileSize := 3, totalChunks := 2, receivedChunks := {0} }
    (by decide) (by decide) (by decide)
  ⟨h.1, h.2.1, h.2.2.1, h.2.2.2.2⟩

theorem mergeChunksAux_fail (uploadId : String) :
    ∀ (rem i f : ℕ) (store : ChunkStore) (acc : List ℕ),
      i ≤ f → f < i + rem →
      store (uploadId, f) = none →
      (∀ j, i ≤ j → j < f → store (uploadId, j) ≠ none) →
      ∃ store2 writtenOut,
        mergeChunksAux uploadId rem i store acc = MergeResult.fail f store2 writtenOut ∧
        (∀ j, f ≤ j → store2 (uploadId, j) = store (uploadId, j)) ∧
        (∀ j, i ≤ j → j < f → store2 (uploadId, j) = none) ∧
        (∀ j, j < i → store2 (uploadId, j) = store (uploadId, j)) := by
  intro rem
  induction rem with
  | zero =>
    intro i f store acc h1 h2 _ _
    omega
  | succ rem ih =>
    intro i f store acc hif hfr hnone hbefore
    by_cases hfi : f = i
    · subst hfi
      refine ⟨store, acc, ?_, fun j _ => rfl, fun j hj1 hj2 => by omega, fun j _ => rfl⟩
      simp [mergeChunksAux, hnone]
    · have hlt : i < f := by omega
      have hsome := hbefore i (le_refl i) hlt
      obtain ⟨b, hb⟩ : ∃ b, store (uploadId, i) = some b := by
        cases hs : store (uploadId, i) with
        | none => exact absurd hs hsome
        | some b => exact ⟨b, rfl⟩
      obtain ⟨store2, po, heq, hge, hmid, hlow⟩ := ih (i + 1) f
        (removeChunk store (uploadId, i)) (acc ++ b) (by omega) (by omega)
        (by
          rw [removeChunk, if_neg (pair_ne_of_snd_ne _ _ _ (by omega : f ≠ i))]
          exact hnone)
        (fun j hj1 hj2 => by
          rw [removeChunk, if_neg (pair_ne_of_snd_ne _ _ _ (by omega : j ≠ i))]
          exact hbefore j (by omega) hj2)
      refine ⟨store2, po, ?_, ?_, ?_, ?_⟩
      · simp only [mergeChunksAux, hb]
        exact heq
      · intro j hj
        rw [hge j hj, removeChunk, if_neg (pair_ne_of_snd_ne _ _ _ (by omega : j ≠ i))]
      · intro j hj1 hj2
        by_cases hji : j = i
        · subst hji
          rw [hlow j (by omega), removeChunk, if_pos rfl]
        · rw [hmid j (by omega) hj2]
      · intro j hj
        rw [hlow j (by omega), removeChunk, if_neg (pair_ne_of_snd_ne _ _ _ (by omega : j ≠ i))]

/-- A server state whose session "u" lists chunk 1 as received although its
staged file is gone, while chunk 0 is staged; delivering chunk 2 completes the
set, and the merge loop reads chunk 0, deletes it, then throws on chunk 1. -/
def lostChunkState : ServerState :=
  { uploads := fun x => if x = "u" then
      some { fileName := "a.txt", fileSize := 3, totalChunks := 3,
             receivedChunks := {0, 1} }
      else none,
    chunkFiles := fun k => if k = ("u", 0) then some [1] else none,
    finalFiles := [] }

/-- C7 counterexample: when reassembly fails while reading chunk 1, the
request is answered with a failure, but the staged chunk 0 — present before
the request — has been deleted by the merge loop, contradicting the claim
that none of the session's staged chunks are deleted. -/
theorem reassembly_deletes_prior_chunks_cex :
    lostChunkState.chunkFiles ("u", 0) = some [1] ∧
    (receiveChunk lostChunkState "u" 2 3 "a.txt" 3 [7]).1.status = 500 ∧
    (receiveChunk lostChunkState "u" 2 3 "a.txt" 3 [7]).1.success = false ∧
    (receiveChunk lostChunkState "u" 2 3 "a.txt" 3 [7]).2.chunkFiles ("u", 0) = none := by
  refine ⟨rfl, ?_, ?_, ?_⟩ <;> decide

/-- C7 amended: a read failure at staged-chunk index `f` during reassembly
aborts the merge, the triggering request receives a 500 failure response, the
session stays in the registry (the delete after `mergeChunks` is skipped), and
staged chunks with index `≥ f` are preserved — but chunks with index `< f`
have already been deleted by the merge loop before the failure, so they are
not available for recovery. -/
theorem reassembly_failure_behavior (st : ServerState) (uploadId fileName : String)
    (chunkIndex totalChunks fileSize f : ℕ) (bytes : List ℕ)
    (hconsistent : (sessionView st.uploads uploadId fileName fileSize totalChunks).totalChunks
        = totalChunks)
    (hcard : (insert chunkIndex (sessionView st.uploads uploadId fileName fileSize
        totalChunks).receivedChunks).card = totalChunks)
    (hf : f < totalChunks)
    (hmissing : setChunk st.chunkFiles (uploadId, chunkIndex) bytes (uploadId, f) = none)
    (hbefore : ∀ j, j < f →
        setChunk st.chunkFiles (uploadId, chunkIndex) bytes (uploadId, j) ≠ none) :
    (receiveChunk st uploadId chunkIndex totalChunks fileName fileSize bytes).1.status = 500 ∧
    (receiveChunk st uploadId chunkIndex totalChunks fileName fileSize bytes).1.success
        = false ∧
    (receiveChunk st uploadId chunkIndex totalChunks fileName fileSize bytes).2.uploads uploadId
        = some { sessionView st.uploads uploadId fileName fileSize totalChunks with
                 receivedChunks := insert chunkIndex (sessionView st.uploads uploadId fileName
                   fileSize totalChunks).receivedChunks } ∧
    (∀ j, f ≤ j →
      (receiveChunk st uploadId chunkIndex totalChunks fileName fileSize
          bytes).2.chunkFiles (uploadId, j)
        = setChunk st.chunkFiles (uploadId, chunkIndex) bytes (uploadId, j)) ∧
    (∀ j, j < f →
      (receiveChunk st uploadId chunkIndex totalChunks fileName fileSize
          bytes).2.chunkFiles (uploadId, j) = none) := by
  obtain ⟨store2, po, heq, hge, hmid, hlow⟩ := mergeChunksAux_fail uploadId totalChunks 0 f
    (setChunk st.chunkFiles (uploadId, chunkIndex) bytes) [] (by omega) (by omega) hmissing
    (fun j _ hj2 => hbefore j hj2)
  have hm2 : mergeChunks uploadId (sessionView st.uploads uploadId fileName fileSize
      totalChunks).totalChunks (setChunk st.chunkFiles (uploadId, chunkIndex) bytes)
      = MergeResult.fail f store2 po := by
    rw [hconsistent, mergeChunks]
    exact heq
  refine ⟨?_, ?_, ?_, ?_, ?_⟩
  · simp only [receiveChunk, hcard, if_true, hm2]
  · simp only [receiveChunk, hcard, if_true, hm2]
  · simp only [receiveChunk, hcard, if_true, hm2]
    simp [setSession]
  · intro j hj
    simp only [receiveChunk, hcard, if_true, hm2]
    exact hge j hj
  · intro j hj
    simp only [receiveChunk, hcard, if_true, hm2]
    exact hmid j (by omega) hj

/-- Witness for `reassembly_failure_behavior` at the lost-chunk state: the
failing index is 1, chunk 2 (just staged) survives, chunk 0 is gone. -/
theorem reassembly_failure_behavior_witness :
    (receiveChunk lostChunkState "u" 2 3 "a.txt" 3 [7]).1.status = 500 ∧
    (receiveChunk lostChunkState "u" 2 3 "a.txt" 3 [7]).2.uploads "u" ≠ none ∧
    (∀ j, 1 ≤ j →
      (receiveChunk lostChunkState "u" 2 3 "a.txt" 3 [7]).2.chunkFiles ("u", j)
        = setChunk lostChunkState.chunkFiles ("u", 2) [7] ("u", j)) ∧
    (∀ j, j < 1 →
      (receiveChunk lostChunkState "u" 2 3 "a.txt" 3 [7]).2.chunkFiles ("u", j) = none) :=
  have h := reassembly_failure_behavior lostChunkState "u" "a.txt" 2 3 3 1 [7]
    (by decide) (by decide) (by decide) (by decide)
    (by
      intro j hj
      have hj0 : j = 0 := by omega
      subst hj0
      decide)
  ⟨h.1, by rw [h.2.2.1]; exact fun hx => Option.noConfusion hx, h.2.2.2.1, h.2.2.2.2⟩

end ChunkUpload
